import Mathlib

/-!
Verification of the nhbot repository: the unit-recognition/conversion engine
described by the specification (whose implementation is not present under
src/, so it is modelled from the spec), and the helpers of
src/telegram_bot/bot.py (membership handlers, message splitting, invite-link
validation, muting).
-/

/-! ## Exact fraction arithmetic

The spec's numeric pipeline parses decimal literals and applies rational
conversion factors.  We model the numbers with an exact, structurally
computable fraction type. -/

structure Frac where
  num : Int
  den : Int
deriving DecidableEq

instance : OfNat Frac n := ⟨⟨n, 1⟩⟩

instance : Add Frac := ⟨fun a b => ⟨a.num * b.den + b.num * a.den, a.den * b.den⟩⟩

instance : Sub Frac := ⟨fun a b => ⟨a.num * b.den - b.num * a.den, a.den * b.den⟩⟩

instance : Mul Frac := ⟨fun a b => ⟨a.num * b.num, a.den * b.den⟩⟩

instance : Div Frac := ⟨fun a b => ⟨a.num * b.den, a.den * b.num⟩⟩

def Frac.floor (q : Frac) : Int :=
  if q.den < 0 then Int.fdiv (-q.num) (-q.den) else Int.fdiv q.num q.den

def twoDigits (k : Nat) : String :=
  (if k < 10 then ("0") else ("")) ++ toString k

/-- Modelled from the spec: every (value, label) pair is rendered as
the value formatted to two decimal places followed by the label. -/
def format2 (q : Frac) : String :=
  let m : Int := Frac.floor (q * 100 + (1 : Frac) / 2)
  let n : Nat := m.natAbs
  (if m < 0 then ("-") else ("")) ++ toString (n / 100) ++ (".") ++ twoDigits (n % 100)

/-! ## Character-level matching primitives -/

def isAsciiDigit (c : Char) : Bool := '0' ≤ c && c ≤ '9'

/-- Splits a character list into its longest all-digit front and the rest. -/
def splitDigits : List Char → List Char × List Char
  | [] => ([], [])
  | c :: cs =>
    if isAsciiDigit c then
      ((splitDigits cs).1.cons c, (splitDigits cs).2)
    else ([], c :: cs)

def skipWs (cs : List Char) : List Char := cs.dropWhile (fun c => c.isWhitespace)

/-- Case-insensitive match of a fixed token at the front of the text;
returns the consumed front of the text (original case) on success. -/
def ciTake : List Char → List Char → Option (List Char)
  | [], _ => some []
  | _ :: _, [] => none
  | a :: as, c :: cs =>
    if a.toLower = c.toLower then (ciTake as cs).map (fun m => c :: m) else none

def pickLonger (best : Option (List Char)) (m : List Char) : Option (List Char) :=
  match best with
  | some b => if m.length > b.length then some m else best
  | none => some m

def stepAlt (cs : List Char) (best : Option (List Char)) (alt : String) : Option (List Char) :=
  match ciTake alt.data cs with
  | some m => pickLonger best m
  | none => best

/-- Modelled from the spec: a unit-name alternation; the captured
unit-name text is the longest alternative matching at the front. -/
def matchAlt (alts : List String) (cs : List Char) : Option (List Char) :=
  alts.foldl (stepAlt cs) none

/-- Modelled from the spec: the shared numeric-prefix sub-pattern
(optional sign, one or more digits, optional fractional part introduced
by a period or comma).  Returns the captured number text and the rest. -/
def matchNumBody (cs : List Char) : Option (List Char × List Char) :=
  let p := splitDigits cs
  if p.1 = [] then none
  else
    match p.2 with
    | [] => some (p.1, [])
    | sep :: cs3 =>
      if sep = '.' ∨ sep = ',' then
        let f := splitDigits cs3
        if f.1 = [] then some (p.1, p.2) else some (p.1 ++ sep :: f.1, f.2)
      else some (p.1, p.2)

def matchNumber (cs : List Char) : Option (List Char × List Char) :=
  match cs with
  | c :: rest =>
    if c = '+' ∨ c = '-' then (matchNumBody rest).map (fun p => (c :: p.1, p.2))
    else matchNumBody cs
  | [] => none

/-- Modelled from the spec: a full unit recognition pattern, anchored at
position 0 — the numeric prefix, optional whitespace, then the unit-name
alternation.  Returns the two captures (number text, unit-name text). -/
def matchPattern (alts : List String) (cs : List Char) : Option (List Char × List Char) :=
  match matchNumber cs with
  | none => none
  | some p =>
    match matchAlt alts (skipWs p.2) with
    | none => none
    | some name => some (p.1, name)

/-! ## Number parsing (spec section 4.1) -/

def digitsToNat (ds : List Char) : Nat :=
  ds.foldl (fun acc c => 10 * acc + (c.toNat - '0'.toNat)) 0

/-- Modelled from the spec: locale normalization replaces every comma
with a period before parsing. -/
def normalizeNumber (cs : List Char) : List Char :=
  cs.map (fun c => if c = ',' then '.' else c)

def parseDecBody (cs : List Char) : Option Frac :=
  let p := splitDigits cs
  if p.1 = [] then none
  else
    match p.2 with
    | [] => some ⟨(digitsToNat p.1 : Int), 1⟩
    | c :: cs3 =>
      if c = '.' then
        let f := splitDigits cs3
        if f.1 = [] then none
        else if f.2 = [] then
          some ⟨(digitsToNat p.1 * 10 ^ f.1.length + digitsToNat f.1 : Int), (10 ^ f.1.length : Nat)⟩
        else none
      else none

def parseDecimal (cs : List Char) : Option Frac :=
  match cs with
  | c :: rest =>
    if c = '-' then (parseDecBody rest).map (fun q => ⟨-q.num, q.den⟩)
    else if c = '+' then parseDecBody rest
    else parseDecBody cs
  | [] => none

/-- Modelled from the spec: NumberParser — normalize the decimal
separator, then parse the literal as an exact number; fails when the
normalized text is not a valid decimal literal. -/
def parseNumber (cs : List Char) : Option Frac :=
  parseDecimal (normalizeNumber cs)

/-! ## Unit definition registry (spec section 4.2) -/

structure UnitDefinition where
  name : String
  alts : List String
  convert : Frac → List (Frac × String)

/-- Modelled from the spec: fahrenheit, formula (F−32)×5/9, label °C. -/
def fahrenheitUnit : UnitDefinition :=
  ⟨"fahrenheit", [("°F"), ("F")], fun x => [((x - 32) * 5 / 9, "°C")]⟩

/-- Modelled from the spec: inches, ×2.54, label cm. -/
def inchesUnit : UnitDefinition :=
  ⟨"inches", [("\""), ("in"), ("inch"), ("inches")], fun x => [(x * (⟨254, 100⟩ : Frac), "cm")]⟩

/-- Modelled from the spec: pound, ×453.59237, label gram. -/
def poundUnit : UnitDefinition :=
  ⟨"pound", [("pound"), ("pounds"), ("lb"), ("lbs")],
    fun x => [(x * (⟨45359237, 100000⟩ : Frac), "gram")]⟩

/-- Modelled from the spec: ounces, ×29.57353 (fluid, ml) and
×28.34952 (mass, gram), fluid first. -/
def ouncesUnit : UnitDefinition :=
  ⟨"ounces", [("oz"), ("fl.oz"), ("ounces")],
    fun x => [(x * (⟨2957353, 100000⟩ : Frac), "ml"), (x * (⟨2834952, 100000⟩ : Frac), "gram")]⟩

/-- Modelled from the spec: feet, ×0.3048, label m. -/
def feetUnit : UnitDefinition :=
  ⟨"feet", [("ft"), ("feet")], fun x => [(x * (⟨3048, 10000⟩ : Frac), "m")]⟩

/-- Modelled from the spec: cups, 13 parallel ingredient-density
outputs, each suffixed with a " gram (<ingredient>)" label, in the
documented order. -/
def cupsUnit : UnitDefinition :=
  ⟨"cups", [("cup")], fun x =>
    [(x * 227, " gram (butter)"),
     (x * 125, " gram (all-purpose flour)"),
     (x * 136, " gram (bread flour)"),
     (x * 85, " gram (cocoa powder)"),
     (x * 120, " gram (powdered sugar)"),
     (x * 95, " gram (rolled oats)"),
     (x * 200, " gram (granulated sugar)"),
     (x * 220, " gram (brown sugar)"),
     (x * 185, " gram (long-grain rice)"),
     (x * 200, " gram (short-grain rice)"),
     (x * 340, " gram (honey/molasses/syrup)"),
     (x * 237, " gram (water)"),
     (x * 249, " gram (whole milk)")]⟩

/-- Modelled from the spec: tablespoon, ×15 (gram) and ×14.7867648 (ml),
gram first. -/
def tablespoonUnit : UnitDefinition :=
  ⟨"tablespoon", [("tablespoon"), ("tbsp")],
    fun x => [(x * 15, "gram"), (x * (⟨147867648, 10000000⟩ : Frac), "ml")]⟩

/-- Modelled from the spec: teaspoon, ×4.18 (gram) and ×5 (ml), gram first. -/
def teaspoonUnit : UnitDefinition :=
  ⟨"teaspoon", [("teaspoon"), ("tsp")],
    fun x => [(x * (⟨418, 100⟩ : Frac), "gram"), (x * 5, "ml")]⟩

/-- Modelled from the spec: the ordered unit registry, constructed once
at process start, in declaration order. -/
def unit_definitions : List UnitDefinition :=
  [fahrenheitUnit, inchesUnit, poundUnit, ouncesUnit, feetUnit, cupsUnit,
   tablespoonUnit, teaspoonUnit]

/-! ## Matcher (spec section 4.3) -/

structure MatchCandidate where
  unit : UnitDefinition
  number : List Char
  name : List Char

def stepFind (text : List Char) (acc : Option MatchCandidate × Nat) (u : UnitDefinition) :
    Option MatchCandidate × Nat :=
  match matchPattern u.alts text with
  | some p => if p.2.length > acc.2 then (some ⟨u, p.1, p.2⟩, p.2.length) else acc
  | none => acc

/-- Modelled from the spec: iterate the registry in declaration order,
keeping the match whose captured unit-name text is strictly longer than
the current best (initial best length 0). -/
def findMatchingUnitIn (reg : List UnitDefinition) (text : String) : Option MatchCandidate :=
  (reg.foldl (stepFind text.data) (none, 0)).1

def findMatchingUnit (text : String) : Option MatchCandidate :=
  findMatchingUnitIn unit_definitions text

/-- All candidates whose pattern matches the text, in registry order. -/
def candsOf (reg : List UnitDefinition) (text : List Char) : List MatchCandidate :=
  reg.filterMap (fun u => (matchPattern u.alts text).map (fun p => ⟨u, p.1, p.2⟩))

def patternMatchesIn (reg : List UnitDefinition) (text : String) : List MatchCandidate :=
  candsOf reg text.data

def patternMatches (text : String) : List MatchCandidate :=
  patternMatchesIn unit_definitions text

/-! ## Conversion engine and command adapter (spec sections 4.4, 4.5) -/

/-- Modelled from the spec: ConversionEngine — parse the captured number
text, apply the unit's conversion function, format every (value, label)
pair and join the lines; errors become user-facing strings. -/
def convertCandidate (c : MatchCandidate) : String :=
  if c.number = [] then ("couldn't find a valid number")
  else
    match parseNumber c.number with
    | none => ("couldn't parse number (`") ++ String.mk c.number ++ ("`) as float")
    | some q => String.intercalate ("\n") ((c.unit.convert q).map (fun p => format2 p.1 ++ p.2))

/-- Modelled from the spec: CommandAdapter — the single entry point for
the conversion command's argument text. -/
def handleConversionCommandIn (reg : List UnitDefinition) (text : String) : String :=
  match findMatchingUnitIn reg text with
  | none => ("couldn't find a valid unit to convert")
  | some c => convertCandidate c

def handleConversionCommand (text : String) : String :=
  handleConversionCommandIn unit_definitions text

/-- Modelled from the spec: newline-joined list of registered unit names
in declaration order. -/
def listSupportedUnitsIn (reg : List UnitDefinition) : String :=
  String.intercalate ("\n") (reg.map (fun u => u.name))

def listSupportedUnits : String := listSupportedUnitsIn unit_definitions

/-! ## Process-state view of the registry (for the immutability claim) -/

structure CoreState where
  registry : List UnitDefinition

/-- Modelled from the spec: a conversion invocation reads the registry
and returns the reply text; the registry is read-only configuration. -/
def invoke (s : CoreState) (text : String) : String × CoreState :=
  (handleConversionCommandIn s.registry text, s)

def runConversions (inputs : List String) (s : CoreState) : CoreState :=
  inputs.foldl (fun st t => (invoke st t).2) s

example : handleConversionCommand ("98.6F") = ("37.00°C") := rfl
example : handleConversionCommand ("12 inches") = ("30.48cm") := rfl
example : handleConversionCommand ("1 tbsp") = ("15.00gram\n14.79ml") := rfl
example : handleConversionCommand ("3 oz") = ("88.72ml\n85.05gram") := rfl
example : handleConversionCommand ("xyz") = ("couldn't find a valid unit to convert") := rfl
example : handleConversionCommand ("lb") = ("couldn't find a valid unit to convert") := rfl
example : handleConversionCommand ("12,5 lb") = ("5669.90gram") := rfl
example : handleConversionCommand ("12.5 lb") = ("5669.90gram") := rfl
example : handleConversionCommand ("1 feet") = ("0.30m") := rfl

/-! ## Line splitting helper (structural replacement for String.splitOn "\n") -/

def splitLines : List Char → List (List Char)
  | [] => [[]]
  | c :: rest =>
    let r := splitLines rest
    if c = '\n' then [] :: r else (c :: r.headD []) :: r.tail

def linesOf (s : String) : List String := (splitLines s.data).map String.mk

example : linesOf ("ab\ncd") = [("ab"), ("cd")] := rfl
example : (linesOf (handleConversionCommand ("2 cups"))).length = 13 := rfl

/-! ## Models of src/telegram_bot/bot.py helpers -/

/-- A chat member.  The User class itself lives in the repository's
chat.py (not under src/); for the membership handlers only the identity,
name and mute flag matter. -/
structure User where
  id : Nat
  name : String
  muted : Bool
deriving DecidableEq

/-- Model of Bot.handle_left_chat_member (src/telegram_bot/bot.py:140-152):
when the leaving member is not the bot, look up the member in chat.users
by id and remove it (users unchanged when the lookup fails); when the
bot itself leaves, context.chat_data is cleared, so the chat's user set
is gone. -/
def handle_left_chat_member (bot_id left_id : Nat) (users : List User) : List User :=
  if left_id = bot_id then []
  else
    match users.filter (fun v => v.id == left_id) with
    | [] => users
    | w :: _ => users.erase w

/-- Model of Bot.new_member (src/telegram_bot/bot.py:187-195): add every
joining member other than the bot to chat.users (a set: adding a present
element changes nothing). -/
def new_member (bot_id : Nat) (members : List User) (users : List User) : List User :=
  members.foldl (fun us m => if m.id == bot_id then us else us.insert m) users

/-- Model of _split_messages (src/telegram_bot/bot.py:361-378): the loop
appends a fresh empty message when the index runs past the list, adds a
line to the current message while the running length stays under 4096,
and otherwise resets the running length and moves to the next message,
dropping the overflowing line. -/
def appendAt : List (List String) → Nat → String → List (List String)
  | [], _, _ => []
  | m :: ms, 0, line => (m ++ [line]) :: ms
  | m :: ms, i + 1, line => m :: appendAt ms i line

def splitAux : List String → List (List String) → Nat → Nat → List (List String)
  | [], messages, _, _ => messages
  | line :: rest, messages, current_length, current_message =>
    let ms := if messages.length ≤ current_message then messages ++ [[]] else messages
    if current_length + line.length < 4096 then
      splitAux rest (appendAt ms current_message line) (current_length + line.length) current_message
    else
      splitAux rest ms 0 (current_message + 1)

def _split_messages (lines : List String) : List (List String) :=
  splitAux lines [] 0 0

/-- A character of one of the two invite-link regexes: a literal, or the
regex metacharacter dot, which matches any character except newline. -/
inductive PatChar where
  | lit (c : Char)
  | dot

def patMatch : List PatChar → List Char → Bool
  | [], _ => true
  | _ :: _, [] => false
  | PatChar.lit a :: ps, c :: cs => a == c && patMatch ps cs
  | PatChar.dot :: ps, c :: cs => c != '\n' && patMatch ps cs

/-- The pattern https://t.me/joinchat/ with its unescaped dot. -/
def invitePattern1 : List PatChar :=
  (("https://t").data.map PatChar.lit) ++ PatChar.dot :: (("me/joinchat/").data.map PatChar.lit)

/-- The pattern tg://join\?invite= (the question mark is escaped). -/
def invitePattern2 : List PatChar :=
  ("tg://join?invite=").data.map PatChar.lit

/-- Model of _validate_invite_link (src/telegram_bot/bot.py:381-389):
re.match of either pattern anchored at the start (the trailing .* of the
source patterns imposes nothing on a prefix match). -/
def _validate_invite_link (link : String) : Bool :=
  patMatch invitePattern1 link.data || patMatch invitePattern2 link.data

example : _validate_invite_link ("https://t.me/joinchat/abc") = true := rfl
example : _validate_invite_link ("https://tXme/joinchat/abc") = true := rfl
example : _validate_invite_link ("tg://join?invite=abc") = true := rfl
example : _validate_invite_link ("https://t\nme/joinchat/abc") = false := rfl
example : _validate_invite_link ("xyz") = false := rfl

/-- Observable side effects of Bot.mute_user: restriction requests made
through the messaging API, notification messages sent, and unmute timers
started. -/
structure SideEffects where
  restrictions : List (String × Nat)
  messages : List (String × String)
  timers : List Nat
deriving DecidableEq

def muteNotice (user : User) (untilSecs : Nat) (reason : Option String) : String :=
  let base := user.name ++ (" has been restricted for ") ++ toString untilSecs ++ ("s.")
  match reason with
  | some r => base ++ ("\nReason: ") ++ r
  | none => base

/-- Model of Bot.mute_user (src/telegram_bot/bot.py:97-115): an already
muted user short-circuits to True; otherwise a restriction request is
issued (set_user_restriction, whose API outcome is restrict_ok), on
success a notification is sent, the muted flag set and an unmute timer
started. -/
def mute_user (restrict_ok : Bool) (chat_id : String) (user : User) (untilSecs : Nat)
    (reason : Option String) : Bool × User × SideEffects :=
  if user.muted then (true, user, ⟨[], [], []⟩)
  else if restrict_ok then
    (true, { user with muted := true },
      ⟨[(chat_id, user.id)], [(chat_id, muteNotice user untilSecs reason)], [untilSecs]⟩)
  else (false, user, ⟨[(chat_id, user.id)], [], []⟩)

/-! ## Lemmas: digit scanning and the numeric prefix pattern -/

theorem foldlExt {α β : Type} (f g : β → α → β) (h : ∀ acc u, f acc u = g acc u) :
    ∀ (l : List α) (acc : β), l.foldl f acc = l.foldl g acc := by
  intro l
  induction l with
  | nil => intro acc; rfl
  | cons a l ih => intro acc; simp only [List.foldl_cons, h acc a, ih]

theorem splitDigits_app (d : List Char) :
    ∀ r, (∀ c ∈ d, isAsciiDigit c) →
      splitDigits (d ++ r) = (d ++ (splitDigits r).1, (splitDigits r).2) := by
  induction d with
  | nil => intro r _; simp [splitDigits]
  | cons c d ih =>
    intro r h
    have hc : isAsciiDigit c = true := h c (List.mem_cons_self c d)
    simp [splitDigits, hc, ih r (fun x hx => h x (List.mem_cons_of_mem c hx))]

theorem splitDigits_no (r : List Char)
    (h : ∀ c, r.head? = some c → isAsciiDigit c = false) : splitDigits r = ([], r) := by
  cases r with
  | nil => rfl
  | cons c cs => simp [splitDigits, h c rfl]

theorem splitDigits_all (l : List Char) (h : ∀ c ∈ l, isAsciiDigit c) :
    splitDigits l = (l, []) := by
  have h0 := splitDigits_app l [] h
  simpa [splitDigits] using h0

theorem splitDigits_fst_digits : ∀ l : List Char, ∀ c ∈ (splitDigits l).1, isAsciiDigit c := by
  intro l
  induction l with
  | nil => intro c hc; cases hc
  | cons a l ih =>
    intro c hc
    by_cases ha : isAsciiDigit a
    · simp only [splitDigits, ha, if_true] at hc
      rcases List.mem_cons.mp hc with rfl | hc
      · exact ha
      · exact ih c hc
    · simp only [splitDigits, ha, if_false] at hc
      cases hc

theorem matchNumBody_int (ds r : List Char) (hne : ds ≠ []) (hd : ∀ c ∈ ds, isAsciiDigit c)
    (hr : ∀ c, r.head? = some c → isAsciiDigit c = false)
    (hr2 : ∀ c r', r = c :: r' → (c = '.' ∨ c = ',') →
      ∀ e, r'.head? = some e → isAsciiDigit e = false) :
    matchNumBody (ds ++ r) = some (ds, r) := by
  have h1 := splitDigits_app ds r hd
  rw [splitDigits_no r hr, List.append_nil] at h1
  cases r with
  | nil =>
    simp only [List.append_nil] at h1 ⊢
    simp [matchNumBody, h1, hne]
  | cons sep r' =>
    by_cases hsep : sep = '.' ∨ sep = ','
    · have h2 := splitDigits_no r' (hr2 sep r' rfl hsep)
      simp [matchNumBody, h1, hne, hsep, h2]
    · simp [matchNumBody, h1, hne, hsep]

theorem matchNumBody_frac (ds fs r : List Char) (sep : Char) (hds : ds ≠ [])
    (hd : ∀ c ∈ ds, isAsciiDigit c) (hsep : sep = '.' ∨ sep = ',') (hfs : fs ≠ [])
    (hf : ∀ c ∈ fs, isAsciiDigit c) :
    matchNumBody (ds ++ sep :: fs ++ r) =
      some (ds ++ sep :: (fs ++ (splitDigits r).1), (splitDigits r).2) := by
  have hsepd : isAsciiDigit sep = false := by
    rcases hsep with rfl | rfl <;> decide
  have hhead : ∀ c, (sep :: (fs ++ r)).head? = some c → isAsciiDigit c = false := by
    intro c hc; cases hc; exact hsepd
  have h1 := splitDigits_app ds (sep :: (fs ++ r)) hd
  simp only [splitDigits_no (sep :: (fs ++ r)) hhead, List.append_nil] at h1
  have h2 := splitDigits_app fs r hf
  have hfs' : fs ++ (splitDigits r).1 ≠ [] := by
    cases fs with
    | nil => exact absurd rfl hfs
    | cons x xs => simp
  simp [matchNumBody, h1, hds, hsep, h2, hfs']

theorem matchNumber_complete (sgn ds frac u' : List Char)
    (hs : sgn = [] ∨ sgn = ['+'] ∨ sgn = ['-']) (hds : ds ≠ [])
    (hd : ∀ c ∈ ds, isAsciiDigit c)
    (hfrac : frac = [] ∨ ∃ sep fs, frac = sep :: fs ∧ (sep = '.' ∨ sep = ',') ∧ fs ≠ [] ∧
      ∀ c ∈ fs, isAsciiDigit c)
    (hu : ∀ c, u'.head? = some c → isAsciiDigit c = false ∧ c ≠ '.' ∧ c ≠ ',') :
    matchNumber ((sgn ++ ds ++ frac) ++ u') = some (sgn ++ ds ++ frac, u') := by
  have hbody : matchNumBody (ds ++ (frac ++ u')) = some (ds ++ frac, u') := by
    rcases hfrac with rfl | ⟨sep, fs, rfl, hsep, hfs, hf⟩
    · simp only [List.nil_append, List.append_nil]
      exact matchNumBody_int ds u' hds hd (fun c hc => (hu c hc).1)
        (by
          intro c r' hr' hcsep e he
          obtain ⟨_, hdot, hcomma⟩ := hu c (by rw [hr']; rfl)
          rcases hcsep with rfl | rfl
          · exact absurd rfl hdot
          · exact absurd rfl hcomma)
    · have h0 := matchNumBody_frac ds fs u' sep hds hd hsep hfs hf
      rw [splitDigits_no u' (fun c hc => (hu c hc).1)] at h0
      simpa using h0
  have hdigit_not_sign : ∀ c, isAsciiDigit c = true → ¬(c = '+' ∨ c = '-') := by
    intro c hc h0
    rcases h0 with rfl | rfl <;> exact absurd hc (by decide)
  rcases hs with rfl | rfl | rfl
  · cases ds with
    | nil => exact absurd rfl hds
    | cons d ds' =>
      have hdd : isAsciiDigit d = true := hd d (List.mem_cons_self d ds')
      have hb := hbody
      simp only [List.cons_append, List.nil_append, List.append_assoc] at hb ⊢
      simp only [matchNumber, hdigit_not_sign d hdd, if_false]
      exact hb
  · have hb := hbody
    simp only [List.cons_append, List.nil_append, List.append_assoc] at hb ⊢
    simp [matchNumber, hb]
  · have hb := hbody
    simp only [List.cons_append, List.nil_append, List.append_assoc] at hb ⊢
    simp [matchNumber, hb]

/-! ## Lemmas: pattern decomposition and the disambiguation fold -/

theorem matchPattern_of_num (alts : List String) (cs num rest : List Char)
    (h : matchNumber cs = some (num, rest)) :
    matchPattern alts cs = (matchAlt alts (skipWs rest)).map (fun name => (num, name)) := by
  unfold matchPattern
  rw [h]
  cases hm : matchAlt alts (skipWs rest) <;> simp [hm]

def stepAux (num tail : List Char) (acc : Option MatchCandidate × Nat) (u : UnitDefinition) :
    Option MatchCandidate × Nat :=
  match matchAlt u.alts tail with
  | some name => if name.length > acc.2 then (some ⟨u, num, name⟩, name.length) else acc
  | none => acc

theorem stepFind_eq_stepAux (text num rest : List Char) (h : matchNumber text = some (num, rest)) :
    ∀ acc u, stepFind text acc u = stepAux num (skipWs rest) acc u := by
  intro acc u
  unfold stepFind stepAux
  rw [matchPattern_of_num u.alts text num rest h]
  cases hm : matchAlt u.alts (skipWs rest) <;> rfl

theorem findIn_of_num (reg : List UnitDefinition) (text : String) (num rest : List Char)
    (h : matchNumber text.data = some (num, rest)) :
    findMatchingUnitIn reg text = (reg.foldl (stepAux num (skipWs rest)) (none, 0)).1 := by
  unfold findMatchingUnitIn
  rw [foldlExt (stepFind text.data) (stepAux num (skipWs rest))
    (stepFind_eq_stepAux text.data num rest h) reg ((none : Option MatchCandidate), 0)]

theorem ciTake_length : ∀ (a cs m : List Char), ciTake a cs = some m → m.length = a.length := by
  intro a
  induction a with
  | nil =>
    intro cs m h
    simp only [ciTake, Option.some.injEq] at h
    subst h
    rfl
  | cons x a ih =>
    intro cs m h
    cases cs with
    | nil => simp [ciTake] at h
    | cons c cs' =>
      simp only [ciTake] at h
      by_cases hx : x.toLower = c.toLower
      · rw [if_pos hx] at h
        obtain ⟨m', hm', hfm⟩ := Option.map_eq_some'.mp h
        subst hfm
        simp [ih cs' m' hm']
      · rw [if_neg hx] at h
        cases h

theorem matchAltGo (cs : List Char) :
    ∀ (alts : List String) (acc : Option (List Char)) (m : List Char),
      alts.foldl (stepAlt cs) acc = some m →
      acc = some m ∨ ∃ alt ∈ alts, ciTake alt.data cs = some m := by
  intro alts
  induction alts with
  | nil => intro acc m h; exact Or.inl h
  | cons a alts ih =>
    intro acc m h
    simp only [List.foldl_cons] at h
    rcases ih (stepAlt cs acc a) m h with h' | ⟨alt, halt, hc⟩
    · unfold stepAlt at h'
      cases hct : ciTake a.data cs with
      | none => rw [hct] at h'; exact Or.inl h'
      | some p =>
        rw [hct] at h'
        cases acc with
        | none =>
          simp only [pickLonger] at h'
          cases h'
          exact Or.inr ⟨a, List.mem_cons_self a alts, hct⟩
        | some b =>
          simp only [pickLonger] at h'
          by_cases hl : p.length > b.length
          · rw [if_pos hl] at h'
            cases h'
            exact Or.inr ⟨a, List.mem_cons_self a alts, hct⟩
          · rw [if_neg hl] at h'
            exact Or.inl h'
    · exact Or.inr ⟨alt, List.mem_cons_of_mem a halt, hc⟩

theorem matchAlt_some (alts : List String) (cs m : List Char) (h : matchAlt alts cs = some m) :
    ∃ alt ∈ alts, ciTake alt.data cs = some m := by
  rcases matchAltGo cs alts none m h with h' | h''
  · cases h'
  · exact h''

theorem alts_nonempty : ∀ u ∈ unit_definitions, ∀ alt ∈ u.alts, alt.data ≠ [] := by
  intro u hu
  simp only [unit_definitions, List.mem_cons, List.not_mem_nil, or_false] at hu
  rcases hu with rfl | rfl | rfl | rfl | rfl | rfl | rfl | rfl <;> decide

theorem candidate_name_pos (reg : List UnitDefinition)
    (halts : ∀ u ∈ reg, ∀ alt ∈ u.alts, alt.data ≠ []) (text : List Char) :
    ∀ c ∈ candsOf reg text, 0 < c.name.length := by
  intro c hc
  obtain ⟨u, hu, hmap⟩ := List.mem_filterMap.mp hc
  obtain ⟨p, hp, hcp⟩ := Option.map_eq_some'.mp hmap
  subst hcp
  unfold matchPattern at hp
  cases hn : matchNumber text with
  | none => rw [hn] at hp; cases hp
  | some pn =>
    rw [hn] at hp
    cases hma : matchAlt u.alts (skipWs pn.2) with
    | none => simp [hma] at hp
    | some name =>
      simp only [hma, Option.some.injEq] at hp
      subst hp
      obtain ⟨alt, halt, hct⟩ := matchAlt_some u.alts (skipWs pn.2) name hma
      have hlen := ciTake_length alt.data (skipWs pn.2) name hct
      have hne := halts u hu alt halt
      show 0 < name.length
      rw [hlen]
      exact List.length_pos.mpr hne

theorem findFold_spec (text : List Char) :
    ∀ (l : List UnitDefinition) (acc : Option MatchCandidate × Nat)
      (processed : List MatchCandidate),
      ((processed = [] ∧ acc = (none, 0)) ∨
        (∃ c l1 l2, acc = (some c, c.name.length) ∧ processed = l1 ++ c :: l2 ∧
          (∀ d ∈ l1, d.name.length < c.name.length) ∧
          (∀ d ∈ processed, d.name.length ≤ c.name.length))) →
      (∀ d ∈ candsOf l text, 0 < d.name.length) →
      ((processed ++ candsOf l text = [] ∧ l.foldl (stepFind text) acc = (none, 0)) ∨
        (∃ c l1 l2, l.foldl (stepFind text) acc = (some c, c.name.length) ∧
          processed ++ candsOf l text = l1 ++ c :: l2 ∧
          (∀ d ∈ l1, d.name.length < c.name.length) ∧
          (∀ d ∈ processed ++ candsOf l text, d.name.length ≤ c.name.length))) := by
  intro l
  induction l with
  | nil =>
    intro acc processed hinv _
    simp only [candsOf, List.filterMap_nil, List.append_nil, List.foldl_nil]
    rcases hinv with ⟨rfl, rfl⟩ | ⟨c, l1, l2, hacc, hproc, hlt, hle⟩
    · exact Or.inl ⟨rfl, rfl⟩
    · exact Or.inr ⟨c, l1, l2, hacc, hproc, hlt, hle⟩
  | cons u l ih =>
    intro acc processed hinv hpos
    cases hm : matchPattern u.alts text with
    | none =>
      have hc : candsOf (u :: l) text = candsOf l text := by
        simp [candsOf, List.filterMap_cons, hm]
      have hstep : stepFind text acc u = acc := by unfold stepFind; rw [hm]
      rw [List.foldl_cons, hstep, hc]
      exact ih acc processed hinv (fun d hd => hpos d (by rw [hc]; exact hd))
    | some p =>
      have hc : candsOf (u :: l) text = ⟨u, p.1, p.2⟩ :: candsOf l text := by
        simp [candsOf, List.filterMap_cons, hm]
      have hepos : 0 < p.2.length := by
        have := hpos ⟨u, p.1, p.2⟩ (by rw [hc]; exact List.mem_cons_self _ _)
        exact this
      have hstep : stepFind text acc u =
          if p.2.length > acc.2 then (some ⟨u, p.1, p.2⟩, p.2.length) else acc := by
        unfold stepFind; rw [hm]
      have hposl : ∀ d ∈ candsOf l text, 0 < d.name.length :=
        fun d hd => hpos d (by rw [hc]; exact List.mem_cons_of_mem _ hd)
      have hnew :
          ((processed ++ [(⟨u, p.1, p.2⟩ : MatchCandidate)] = [] ∧
            (if p.2.length > acc.2 then
              ((some ⟨u, p.1, p.2⟩ : Option MatchCandidate), p.2.length) else acc) = (none, 0)) ∨
          (∃ c l1 l2,
            (if p.2.length > acc.2 then
              ((some ⟨u, p.1, p.2⟩ : Option MatchCandidate), p.2.length) else acc) =
                (some c, c.name.length) ∧
            processed ++ [(⟨u, p.1, p.2⟩ : MatchCandidate)] = l1 ++ c :: l2 ∧
            (∀ d ∈ l1, d.name.length < c.name.length) ∧
            (∀ d ∈ processed ++ [(⟨u, p.1, p.2⟩ : MatchCandidate)],
              d.name.length ≤ c.name.length))) := by
        rcases hinv with ⟨rfl, rfl⟩ | ⟨c, l1, l2, hacc, hproc, hlt, hle⟩
        · right
          refine ⟨⟨u, p.1, p.2⟩, [], [], ?_, by simp, by simp, ?_⟩
          · rw [if_pos hepos]
          · intro d hd
            simp only [List.nil_append, List.mem_singleton] at hd
            subst hd
            exact Nat.le_refl _
        · subst hacc
          by_cases hgt : p.2.length > c.name.length
          · right
            refine ⟨⟨u, p.1, p.2⟩, processed, [], ?_, by simp, ?_, ?_⟩
            · rw [if_pos hgt]
            · intro d hd
              exact Nat.lt_of_le_of_lt (hle d hd) hgt
            · intro d hd
              rcases List.mem_append.mp hd with hd | hd
              · exact Nat.le_of_lt (Nat.lt_of_le_of_lt (hle d hd) hgt)
              · simp only [List.mem_singleton] at hd
                subst hd
                exact Nat.le_refl _
          · right
            refine ⟨c, l1, l2 ++ [⟨u, p.1, p.2⟩], ?_, ?_, hlt, ?_⟩
            · rw [if_neg hgt]
            · rw [hproc]; simp
            · intro d hd
              rcases List.mem_append.mp hd with hd | hd
              · exact hle d hd
              · simp only [List.mem_singleton] at hd
                subst hd
                exact Nat.le_of_not_lt hgt
      have hres := ih _ _ hnew hposl
      rw [List.foldl_cons, hstep, hc]
      have hlistassoc : processed ++ ((⟨u, p.1, p.2⟩ : MatchCandidate) :: candsOf l text) =
          (processed ++ [(⟨u, p.1, p.2⟩ : MatchCandidate)]) ++ candsOf l text := by simp
      rw [hlistassoc]
      exact hres

/-- Claim C2: findMatchingUnit returns, among all matching registered
patterns, the candidate whose captured unit-name is longest, resolving
ties by first-registered order, and none when no pattern matches. -/
theorem claim_C2_longest_match (text : String) :
    (patternMatches text = [] → findMatchingUnit text = none) ∧
    (patternMatches text ≠ [] →
      ∃ c l1 l2, findMatchingUnit text = some c ∧
        patternMatches text = l1 ++ c :: l2 ∧
        (∀ d ∈ l1, d.name.length < c.name.length) ∧
        (∀ d ∈ patternMatches text, d.name.length ≤ c.name.length)) := by
  have hspec := findFold_spec text.data unit_definitions ((none : Option MatchCandidate), 0) []
    (Or.inl ⟨rfl, rfl⟩)
    (candidate_name_pos unit_definitions alts_nonempty text.data)
  simp only [List.nil_append] at hspec
  rcases hspec with ⟨htot, hres⟩ | ⟨c, l1, l2, hres, htot, hlt, hle⟩
  · constructor
    · intro _
      unfold findMatchingUnit findMatchingUnitIn
      rw [hres]
    · intro hne
      exact absurd htot hne
  · constructor
    · intro h0
      unfold patternMatches patternMatchesIn at h0
      rw [h0] at htot
      exact absurd htot.symm (List.cons_ne_nil c l2 ∘ fun h => (List.append_eq_nil.mp h).2)
    · intro _
      refine ⟨c, l1, l2, ?_, htot, hlt, hle⟩
      unfold findMatchingUnit findMatchingUnitIn
      rw [hres]

theorem claim_C2_witness :
    patternMatches ("1 feet") ≠ [] ∧
    (∃ c l1 l2, findMatchingUnit ("1 feet") = some c ∧
      patternMatches ("1 feet") = l1 ++ c :: l2 ∧
      (∀ d ∈ l1, d.name.length < c.name.length) ∧
      (∀ d ∈ patternMatches ("1 feet"), d.name.length ≤ c.name.length)) := by
  have hlen : (patternMatches ("1 feet")).length = 2 := rfl
  have hne : patternMatches ("1 feet") ≠ [] := by
    intro h
    rw [h] at hlen
    exact absurd hlen (by decide)
  exact ⟨hne, (claim_C2_longest_match ("1 feet")).2 hne⟩

theorem foldl_stepFind_id (t : List Char) :
    ∀ (l : List UnitDefinition) (acc : Option MatchCandidate × Nat),
      (∀ u ∈ l, matchPattern u.alts t = none) → l.foldl (stepFind t) acc = acc := by
  intro l
  induction l with
  | nil => intro acc _; rfl
  | cons u l ih =>
    intro acc h
    have hstep : stepFind t acc u = acc := by
      unfold stepFind
      rw [h u (List.mem_cons_self u l)]
    rw [List.foldl_cons, hstep]
    exact ih acc (fun v hv => h v (List.mem_cons_of_mem u hv))

/-- Claim C3: whenever no registered unit pattern matches at the start of
the text, handleConversionCommand returns exactly the string
"couldn't find a valid unit to convert" (the model is total, so no error
escapes the core). -/
theorem claim_C3_no_unit_message (text : String) (h : patternMatches text = []) :
    handleConversionCommand text = ("couldn't find a valid unit to convert") := by
  unfold patternMatches patternMatchesIn candsOf at h
  have h' : ∀ u ∈ unit_definitions, matchPattern u.alts text.data = none := by
    intro u hu
    exact Option.map_eq_none'.mp (List.filterMap_eq_nil_iff.mp h u hu)
  unfold handleConversionCommand handleConversionCommandIn findMatchingUnitIn
  rw [foldl_stepFind_id text.data unit_definitions ((none : Option MatchCandidate), 0) h']

theorem claim_C3_witness :
    patternMatches ("xyz") = [] ∧
    handleConversionCommand ("xyz") = ("couldn't find a valid unit to convert") ∧
    patternMatches ("lb") = [] ∧
    handleConversionCommand ("lb") = ("couldn't find a valid unit to convert") :=
  ⟨rfl, claim_C3_no_unit_message ("xyz") rfl, rfl, claim_C3_no_unit_message ("lb") rfl⟩

/-- Claim C4: the input "2 cups" produces exactly 13 newline-separated
lines, one per ingredient in the documented declaration order, each
ending in its distinct ingredient label. -/
theorem claim_C4_cups_output :
    (linesOf (handleConversionCommand ("2 cups"))).length = 13 ∧
    linesOf (handleConversionCommand ("2 cups")) =
      [("454.00 gram (butter)"), ("250.00 gram (all-purpose flour)"),
       ("272.00 gram (bread flour)"), ("170.00 gram (cocoa powder)"),
       ("240.00 gram (powdered sugar)"), ("190.00 gram (rolled oats)"),
       ("400.00 gram (granulated sugar)"), ("440.00 gram (brown sugar)"),
       ("370.00 gram (long-grain rice)"), ("400.00 gram (short-grain rice)"),
       ("680.00 gram (honey/molasses/syrup)"), ("474.00 gram (water)"),
       ("498.00 gram (whole milk)")] :=
  ⟨rfl, rfl⟩

theorem runConversions_id : ∀ (inputs : List String) (s : CoreState),
    runConversions inputs s = s := by
  intro inputs
  induction inputs with
  | nil => intro s; rfl
  | cons t ts ih => intro s; exact ih s

/-- Claim C6: the unit registry is immutable — after any sequence of
conversion invocations the registry equals the registry at process
start, and listSupportedUnits gives the same output before and after. -/
theorem claim_C6_registry_immutable (inputs : List String) :
    (runConversions inputs ⟨unit_definitions⟩).registry = unit_definitions ∧
    listSupportedUnitsIn (runConversions inputs ⟨unit_definitions⟩).registry =
      listSupportedUnits := by
  rw [runConversions_id inputs ⟨unit_definitions⟩]
  exact ⟨rfl, rfl⟩

/-- Claim C10: muting an already muted user returns True immediately,
issues no restriction request, sends no message, starts no timer, and
leaves the user unchanged. -/
theorem claim_C10_mute_idempotent (restrict_ok : Bool) (chat_id : String) (user : User)
    (untilSecs : Nat) (reason : Option String) (h : user.muted = true) :
    mute_user restrict_ok chat_id user untilSecs reason = (true, user, ⟨[], [], []⟩) := by
  unfold mute_user
  rw [if_pos h]

theorem claim_C10_witness :
    ((⟨1, ("u"), true⟩ : User)).muted = true ∧
    mute_user true ("c") ⟨1, ("u"), true⟩ 60 none = (true, ⟨1, ("u"), true⟩, ⟨[], [], []⟩) :=
  ⟨rfl, claim_C10_mute_idempotent true ("c") ⟨1, ("u"), true⟩ 60 none rfl⟩

/-! ## Claim C1: the fahrenheit pipeline -/

/-- A valid numeric string in the sense of the number sub-pattern:
optional sign, one or more digits, optional fractional part. -/
def ValidNumber (s : String) : Prop :=
  ∃ sgn ds frac, s.data = sgn ++ ds ++ frac ∧ (sgn = [] ∨ sgn = ['+'] ∨ sgn = ['-']) ∧
    ds ≠ [] ∧ (∀ c ∈ ds, isAsciiDigit c) ∧
    (frac = [] ∨ ∃ sep fs, frac = sep :: fs ∧ (sep = '.' ∨ sep = ',') ∧ fs ≠ [] ∧
      ∀ c ∈ fs, isAsciiDigit c)

/-- Claim C1: for every valid numeric string n and unit token F/°F
(case-insensitive), the conversion entry point applied to their
concatenation returns (n−32)×5/9 formatted to two decimals followed by
°C. -/
theorem claim_C1_fahrenheit (n : String) (hn : ValidNumber n) (u : String)
    (hu : u = ("F") ∨ u = ("f") ∨ u = ("°F") ∨ u = ("°f")) (q : Frac)
    (hq : parseNumber n.data = some q) :
    handleConversionCommand (n ++ u) = format2 ((q - 32) * 5 / 9) ++ ("°C") := by
  obtain ⟨sgn, ds, frac, hdata, hs, hds, hd, hfrac⟩ := hn
  have htail : ∀ c, u.data.head? = some c → isAsciiDigit c = false ∧ c ≠ '.' ∧ c ≠ ',' := by
    rcases hu with rfl | rfl | rfl | rfl <;> (intro c hc; cases hc; exact (by decide))
  have hnum : matchNumber ((n ++ u)).data = some (n.data, u.data) := by
    rw [String.data_append, hdata]
    exact matchNumber_complete sgn ds frac u.data hs hds hd hfrac htail
  have hfind := findIn_of_num unit_definitions (n ++ u) n.data u.data hnum
  have hsel : (unit_definitions.foldl (stepAux n.data (skipWs u.data))
      ((none : Option MatchCandidate), 0)).1 = some ⟨fahrenheitUnit, n.data, u.data⟩ := by
    rcases hu with rfl | rfl | rfl | rfl <;> rfl
  have hne : n.data ≠ [] := by
    rw [hdata]
    intro h0
    exact hds (List.append_eq_nil.mp (List.append_eq_nil.mp h0).1).2
  unfold handleConversionCommand handleConversionCommandIn
  rw [hfind, hsel]
  show convertCandidate ⟨fahrenheitUnit, n.data, u.data⟩ = format2 ((q - 32) * 5 / 9) ++ ("°C")
  unfold convertCandidate
  have hne' : ¬((⟨fahrenheitUnit, n.data, u.data⟩ : MatchCandidate).number = []) := hne
  have hq' : parseNumber ((⟨fahrenheitUnit, n.data, u.data⟩ : MatchCandidate).number) = some q := hq
  rw [if_neg hne', hq']
  rfl

theorem claim_C1_witness :
    ValidNumber ("98.6") ∧
    handleConversionCommand (("98.6") ++ ("F")) = ("37.00°C") := by
  have hv : ValidNumber ("98.6") :=
    ⟨[], ['9', '8'], ['.', '6'], rfl, Or.inl rfl, by decide, by decide,
      Or.inr ⟨'.', ['6'], rfl, Or.inl rfl, by decide, by decide⟩⟩
  refine ⟨hv, ?_⟩
  rw [claim_C1_fahrenheit ("98.6") hv ("F") (Or.inl rfl) ⟨986, 10⟩ rfl]
  rfl

/-! ## Claim C5: comma as decimal separator -/

theorem digit_not_sign (c : Char) (hc : isAsciiDigit c = true) : ¬(c = '+' ∨ c = '-') := by
  intro h0
  rcases h0 with rfl | rfl <;> exact absurd hc (by decide)

theorem matchNumber_comma (a b rest : List Char) (sep : Char) (ha : a ≠ [])
    (hda : ∀ c ∈ a, isAsciiDigit c) (hb : b ≠ []) (hdb : ∀ c ∈ b, isAsciiDigit c)
    (hsep : sep = '.' ∨ sep = ',') :
    matchNumber (a ++ sep :: (b ++ rest)) =
      some (a ++ sep :: (b ++ (splitDigits rest).1), (splitDigits rest).2) := by
  have hbody := matchNumBody_frac a b rest sep ha hda hsep hb hdb
  cases a with
  | nil => exact absurd rfl ha
  | cons a0 a' =>
    have h0 : isAsciiDigit a0 = true := hda a0 (List.mem_cons_self a0 a')
    simp only [List.cons_append, List.append_assoc] at hbody ⊢
    simp only [matchNumber, digit_not_sign a0 h0, if_false]
    exact hbody

theorem normalizeNumber_digits (l : List Char) (h : ∀ c ∈ l, isAsciiDigit c) :
    normalizeNumber l = l := by
  induction l with
  | nil => rfl
  | cons c l ih =>
    have hc : ¬(c = ',') := by
      intro h0
      subst h0
      exact absurd (h ',' (List.mem_cons_self _ _)) (by decide)
    show (if c = ',' then '.' else c) :: normalizeNumber l = c :: l
    rw [if_neg hc, ih (fun x hx => h x (List.mem_cons_of_mem c hx))]

theorem parseDecBody_frac (a fb : List Char) (ha : a ≠ []) (hda : ∀ c ∈ a, isAsciiDigit c)
    (hb : fb ≠ []) (hdb : ∀ c ∈ fb, isAsciiDigit c) :
    parseDecBody (a ++ '.' :: fb) =
      some ⟨(digitsToNat a * 10 ^ fb.length + digitsToNat fb : Int), (10 ^ fb.length : Nat)⟩ := by
  have h1 := splitDigits_app a ('.' :: fb) hda
  simp only [splitDigits_no ('.' :: fb) (by intro c hc; cases hc; decide),
    List.append_nil] at h1
  have h2 := splitDigits_all fb hdb
  simp [parseDecBody, h1, ha, h2, hb]

theorem parseNumber_sep (a bt : List Char) (sep : Char) (hsep : sep = '.' ∨ sep = ',')
    (ha : a ≠ []) (hda : ∀ c ∈ a, isAsciiDigit c) (hb : bt ≠ [])
    (hdb : ∀ c ∈ bt, isAsciiDigit c) :
    parseNumber (a ++ sep :: bt) =
      some ⟨(digitsToNat a * 10 ^ bt.length + digitsToNat bt : Int), (10 ^ bt.length : Nat)⟩ := by
  unfold parseNumber
  have h3 : normalizeNumber (sep :: bt) = '.' :: bt := by
    show (if sep = ',' then '.' else sep) :: normalizeNumber bt = '.' :: bt
    rw [normalizeNumber_digits bt hdb]
    rcases hsep with rfl | rfl <;> simp
  have hnorm : normalizeNumber (a ++ sep :: bt) = a ++ '.' :: bt := by
    calc normalizeNumber (a ++ sep :: bt)
        = normalizeNumber a ++ normalizeNumber (sep :: bt) := List.map_append _ a (sep :: bt)
      _ = a ++ '.' :: bt := by rw [normalizeNumber_digits a hda, h3]
  rw [hnorm]
  cases a with
  | nil => exact absurd rfl ha
  | cons a0 a' =>
    have h0 : isAsciiDigit a0 = true := hda a0 (List.mem_cons_self a0 a')
    have hns := digit_not_sign a0 h0
    have hbody := parseDecBody_frac (a0 :: a') bt ha hda hb hdb
    simp only [List.cons_append] at hbody ⊢
    simp only [parseDecimal]
    rw [if_neg (fun h => hns (Or.inr h)), if_neg (fun h => hns (Or.inl h))]
    exact hbody

theorem stepAux_rel (num1 num2 tail : List Char) (u : UnitDefinition)
    (acc1 acc2 : Option MatchCandidate × Nat) (h2 : acc1.2 = acc2.2)
    (hopt : (acc1.1 = none ∧ acc2.1 = none) ∨
      ∃ v name, acc1.1 = some ⟨v, num1, name⟩ ∧ acc2.1 = some ⟨v, num2, name⟩) :
    (stepAux num1 tail acc1 u).2 = (stepAux num2 tail acc2 u).2 ∧
      (((stepAux num1 tail acc1 u).1 = none ∧ (stepAux num2 tail acc2 u).1 = none) ∨
        ∃ v name, (stepAux num1 tail acc1 u).1 = some ⟨v, num1, name⟩ ∧
          (stepAux num2 tail acc2 u).1 = some ⟨v, num2, name⟩) := by
  cases hma : matchAlt u.alts tail with
  | none =>
    simp only [stepAux, hma]
    exact ⟨h2, hopt⟩
  | some name =>
    simp only [stepAux, hma]
    rw [h2]
    by_cases hgt : name.length > acc2.2
    · rw [if_pos hgt, if_pos hgt]
      exact ⟨rfl, Or.inr ⟨u, name, rfl, rfl⟩⟩
    · rw [if_neg hgt, if_neg hgt]
      exact ⟨h2, hopt⟩

theorem findAux_rel (num1 num2 tail : List Char) :
    ∀ (l : List UnitDefinition) (acc1 acc2 : Option MatchCandidate × Nat),
      (acc1.2 = acc2.2 ∧ ((acc1.1 = none ∧ acc2.1 = none) ∨
        ∃ u name, acc1.1 = some ⟨u, num1, name⟩ ∧ acc2.1 = some ⟨u, num2, name⟩)) →
      ((l.foldl (stepAux num1 tail) acc1).2 = (l.foldl (stepAux num2 tail) acc2).2 ∧
        (((l.foldl (stepAux num1 tail) acc1).1 = none ∧
          (l.foldl (stepAux num2 tail) acc2).1 = none) ∨
          ∃ u name, (l.foldl (stepAux num1 tail) acc1).1 = some ⟨u, num1, name⟩ ∧
            (l.foldl (stepAux num2 tail) acc2).1 = some ⟨u, num2, name⟩)) := by
  intro l
  induction l with
  | nil =>
    intro acc1 acc2 h
    simpa using h
  | cons u l ih =>
    intro acc1 acc2 h
    rw [List.foldl_cons, List.foldl_cons]
    exact ih _ _ (stepAux_rel num1 num2 tail u acc1 acc2 h.1 h.2)

theorem normalizeNumber_sign_sep (sgn a bt : List Char) (sep : Char)
    (hs : sgn = [] ∨ sgn = ['+'] ∨ sgn = ['-']) (hsep : sep = '.' ∨ sep = ',')
    (hda : ∀ c ∈ a, isAsciiDigit c) (hdb : ∀ c ∈ bt, isAsciiDigit c) :
    normalizeNumber (sgn ++ (a ++ sep :: bt)) = sgn ++ (a ++ '.' :: bt) := by
  have h3 : normalizeNumber (sep :: bt) = '.' :: bt := by
    show (if sep = ',' then '.' else sep) :: normalizeNumber bt = '.' :: bt
    rw [normalizeNumber_digits bt hdb]
    rcases hsep with rfl | rfl <;> simp
  have hmid : normalizeNumber (a ++ sep :: bt) = a ++ '.' :: bt := by
    calc normalizeNumber (a ++ sep :: bt)
        = normalizeNumber a ++ normalizeNumber (sep :: bt) := List.map_append _ a (sep :: bt)
      _ = a ++ '.' :: bt := by rw [normalizeNumber_digits a hda, h3]
  rcases hs with rfl | rfl | rfl
  · simpa using hmid
  · show (if '+' = ',' then '.' else '+') :: normalizeNumber (a ++ sep :: bt) =
      '+' :: (a ++ '.' :: bt)
    rw [if_neg (by decide), hmid]
  · show (if '-' = ',' then '.' else '-') :: normalizeNumber (a ++ sep :: bt) =
      '-' :: (a ++ '.' :: bt)
    rw [if_neg (by decide), hmid]

theorem parseNumber_sign_sep (sgn a bt : List Char) (sep : Char)
    (hs : sgn = [] ∨ sgn = ['+'] ∨ sgn = ['-']) (hsep : sep = '.' ∨ sep = ',')
    (ha : a ≠ []) (hda : ∀ c ∈ a, isAsciiDigit c) (hb : bt ≠ [])
    (hdb : ∀ c ∈ bt, isAsciiDigit c) :
    ∃ v, parseNumber (sgn ++ (a ++ sep :: bt)) = some v ∧
      parseNumber (sgn ++ (a ++ '.' :: bt)) = some v := by
  have hbody := parseDecBody_frac a bt ha hda hb hdb
  have hsome : ∃ v, parseDecimal (sgn ++ (a ++ '.' :: bt)) = some v := by
    rcases hs with rfl | rfl | rfl
    · cases a with
      | nil => exact absurd rfl ha
      | cons a0 a' =>
        have h0 : isAsciiDigit a0 = true := hda a0 (List.mem_cons_self a0 a')
        have hns := digit_not_sign a0 h0
        refine ⟨⟨(digitsToNat (a0 :: a') * 10 ^ bt.length + digitsToNat bt : Int),
          ((10 ^ bt.length : Nat) : Int)⟩, ?_⟩
        have hb' := hbody
        simp only [List.cons_append, List.nil_append] at hb' ⊢
        simp only [parseDecimal]
        rw [if_neg (fun h => hns (Or.inr h)), if_neg (fun h => hns (Or.inl h))]
        exact hb'
    · refine ⟨⟨(digitsToNat a * 10 ^ bt.length + digitsToNat bt : Int),
        ((10 ^ bt.length : Nat) : Int)⟩, ?_⟩
      show parseDecimal ('+' :: (a ++ '.' :: bt)) = _
      simp only [parseDecimal, if_true]
      exact hbody
    · refine ⟨⟨-(digitsToNat a * 10 ^ bt.length + digitsToNat bt : Int),
        ((10 ^ bt.length : Nat) : Int)⟩, ?_⟩
      show parseDecimal ('-' :: (a ++ '.' :: bt)) = _
      simp only [parseDecimal, if_true]
      rw [hbody]
      rfl
  obtain ⟨v, hv⟩ := hsome
  refine ⟨v, ?_, ?_⟩
  · unfold parseNumber
    rw [normalizeNumber_sign_sep sgn a bt sep hs hsep hda hdb]
    exact hv
  · unfold parseNumber
    rw [normalizeNumber_sign_sep sgn a bt '.' hs (Or.inl rfl) hda hdb]
    exact hv

theorem matchNumber_sign_comma (sgn a b rest : List Char) (sep : Char)
    (hs : sgn = [] ∨ sgn = ['+'] ∨ sgn = ['-']) (ha : a ≠ [])
    (hda : ∀ c ∈ a, isAsciiDigit c) (hb : b ≠ []) (hdb : ∀ c ∈ b, isAsciiDigit c)
    (hsep : sep = '.' ∨ sep = ',') :
    matchNumber (sgn ++ (a ++ sep :: (b ++ rest))) =
      some (sgn ++ (a ++ sep :: (b ++ (splitDigits rest).1)), (splitDigits rest).2) := by
  have hplain := matchNumber_comma a b rest sep ha hda hb hdb hsep
  rcases hs with rfl | rfl | rfl
  · simp only [List.nil_append]
    exact hplain
  · have hb' := matchNumBody_frac a b rest sep ha hda hsep hb hdb
    simp only [List.cons_append, List.nil_append, List.append_assoc] at hb' ⊢
    simp [matchNumber, hb']
  · have hb' := matchNumBody_frac a b rest sep ha hda hsep hb hdb
    simp only [List.cons_append, List.nil_append, List.append_assoc] at hb' ⊢
    simp [matchNumber, hb']

/-- Claim C5: for every (optionally signed) numeric literal, writing the
decimal separator as a comma instead of a period does not change the
conversion result — the comma is replaced by a period before parsing. -/
theorem claim_C5_comma_decimal (sgn a b rest : List Char)
    (hs : sgn = [] ∨ sgn = ['+'] ∨ sgn = ['-']) (ha : a ≠ [])
    (hda : ∀ c ∈ a, isAsciiDigit c) (hb : b ≠ []) (hdb : ∀ c ∈ b, isAsciiDigit c) :
    handleConversionCommand (String.mk (sgn ++ (a ++ ',' :: (b ++ rest)))) =
      handleConversionCommand (String.mk (sgn ++ (a ++ '.' :: (b ++ rest)))) := by
  have ht := splitDigits_fst_digits rest
  have h1 := matchNumber_sign_comma sgn a b rest ',' hs ha hda hb hdb (Or.inr rfl)
  have h2 := matchNumber_sign_comma sgn a b rest '.' hs ha hda hb hdb (Or.inl rfl)
  have hf1 := findIn_of_num unit_definitions (String.mk (sgn ++ (a ++ ',' :: (b ++ rest))))
    (sgn ++ (a ++ ',' :: (b ++ (splitDigits rest).1))) (splitDigits rest).2 h1
  have hf2 := findIn_of_num unit_definitions (String.mk (sgn ++ (a ++ '.' :: (b ++ rest))))
    (sgn ++ (a ++ '.' :: (b ++ (splitDigits rest).1))) (splitDigits rest).2 h2
  have hrel := findAux_rel (sgn ++ (a ++ ',' :: (b ++ (splitDigits rest).1)))
    (sgn ++ (a ++ '.' :: (b ++ (splitDigits rest).1))) (skipWs (splitDigits rest).2)
    unit_definitions ((none : Option MatchCandidate), 0) ((none : Option MatchCandidate), 0)
    ⟨rfl, Or.inl ⟨rfl, rfl⟩⟩
  obtain ⟨hsnd, hopt⟩ := hrel
  unfold handleConversionCommand handleConversionCommandIn
  rw [hf1, hf2]
  rcases hopt with ⟨hn1, hn2⟩ | ⟨u, name, hs1, hs2⟩
  · rw [hn1, hn2]
  · rw [hs1, hs2]
    have hbt : b ++ (splitDigits rest).1 ≠ [] := by
      cases b with
      | nil => exact absurd rfl hb
      | cons x xs => simp
    have hdbt : ∀ c ∈ b ++ (splitDigits rest).1, isAsciiDigit c := by
      intro c hc
      rcases List.mem_append.mp hc with hc | hc
      · exact hdb c hc
      · exact ht c hc
    have hmidne : ∀ s : Char, a ++ s :: (b ++ (splitDigits rest).1) ≠ [] := by
      intro s
      cases a with
      | nil => exact absurd rfl ha
      | cons x xs => simp
    have hne1 : sgn ++ (a ++ ',' :: (b ++ (splitDigits rest).1)) ≠ [] := by
      cases sgn with
      | nil => exact hmidne ','
      | cons x xs => simp
    have hne2 : sgn ++ (a ++ '.' :: (b ++ (splitDigits rest).1)) ≠ [] := by
      cases sgn with
      | nil => exact hmidne '.'
      | cons x xs => simp
    obtain ⟨v, hv1, hv2⟩ := parseNumber_sign_sep sgn a (b ++ (splitDigits rest).1) ','
      hs (Or.inr rfl) ha hda hbt hdbt
    show convertCandidate ⟨u, sgn ++ (a ++ ',' :: (b ++ (splitDigits rest).1)), name⟩ =
      convertCandidate ⟨u, sgn ++ (a ++ '.' :: (b ++ (splitDigits rest).1)), name⟩
    unfold convertCandidate
    rw [if_neg hne1, if_neg hne2, hv1, hv2]

theorem claim_C5_witness :
    handleConversionCommand ("12,5 lb") = handleConversionCommand ("12.5 lb") ∧
    handleConversionCommand ("12,5 lb") = ("5669.90gram") ∧
    handleConversionCommand ("-12,5 lb") = handleConversionCommand ("-12.5 lb") ∧
    handleConversionCommand ("-12,5 lb") = ("-5669.90gram") := by
  have h1 := claim_C5_comma_decimal [] ['1', '2'] ['5'] ((" lb").data)
    (Or.inl rfl) (by decide) (by decide) (by decide) (by decide)
  have h2 := claim_C5_comma_decimal ['-'] ['1', '2'] ['5'] ((" lb").data)
    (Or.inr (Or.inr rfl)) (by decide) (by decide) (by decide) (by decide)
  exact ⟨h1, rfl, h2, rfl⟩

/-! ## Claim C7: membership tracking -/

theorem new_member_mem_of_mem (bot_id : Nat) :
    ∀ (members users : List User) (v : User), v ∈ users → v ∈ new_member bot_id members users := by
  intro members
  induction members with
  | nil => intro users v hv; exact hv
  | cons m ms ih =>
    intro users v hv
    show v ∈ new_member bot_id ms (if m.id == bot_id then users else users.insert m)
    apply ih
    by_cases hm : (m.id == bot_id) = true
    · rw [if_pos hm]; exact hv
    · rw [if_neg hm]; exact List.mem_insert_iff.mpr (Or.inr hv)

theorem new_member_adds (bot_id : Nat) :
    ∀ (members users : List User) (m : User), m ∈ members → m.id ≠ bot_id →
      m ∈ new_member bot_id members users := by
  intro members
  induction members with
  | nil => intro users m hm _; cases hm
  | cons x ms ih =>
    intro users m hm hid
    rcases List.mem_cons.mp hm with rfl | hm
    · show m ∈ new_member bot_id ms (if m.id == bot_id then users else users.insert m)
      have hx : ¬((m.id == bot_id) = true) := by simpa using hid
      rw [if_neg hx]
      exact new_member_mem_of_mem bot_id ms _ m (List.mem_insert_self m users)
    · exact ih _ m hm hid

/-- Claim C7: when a left_chat_member update names a non-bot member
present in chat.users, handle_left_chat_member removes exactly that
member; new_member adds each joining non-bot member and removes no one. -/
theorem claim_C7_membership :
    (∀ (bot_id left_id : Nat) (users : List User) (u : User),
      left_id ≠ bot_id → u ∈ users → u.id = left_id →
      ∃ w ∈ users, w.id = left_id ∧
        handle_left_chat_member bot_id left_id users = users.erase w ∧
        (handle_left_chat_member bot_id left_id users).length + 1 = users.length ∧
        (∀ v ∈ users, v ≠ w → v ∈ handle_left_chat_member bot_id left_id users)) ∧
    (∀ (bot_id : Nat) (members users : List User),
      (∀ m ∈ members, m.id ≠ bot_id → m ∈ new_member bot_id members users) ∧
      (∀ v ∈ users, v ∈ new_member bot_id members users)) := by
  constructor
  · intro bot_id left_id users u hne hu hid
    have hufilter : u ∈ users.filter (fun v => v.id == left_id) :=
      List.mem_filter.mpr ⟨hu, by simpa using hid⟩
    cases hfil : users.filter (fun v => v.id == left_id) with
    | nil => rw [hfil] at hufilter; cases hufilter
    | cons w ws =>
      have hwin : w ∈ users.filter (fun v => v.id == left_id) := by
        rw [hfil]; exact List.mem_cons_self w ws
      obtain ⟨hwu, hwid⟩ := List.mem_filter.mp hwin
      have hwid' : w.id = left_id := by simpa using hwid
      have hresult : handle_left_chat_member bot_id left_id users = users.erase w := by
        unfold handle_left_chat_member
        rw [if_neg hne, hfil]
      refine ⟨w, hwu, hwid', hresult, ?_, ?_⟩
      · rw [hresult, List.length_erase_of_mem hwu]
        have hpos : 0 < users.length := List.length_pos.mpr (List.ne_nil_of_mem hwu)
        omega
      · intro v hv hvw
        rw [hresult]
        exact (List.mem_erase_of_ne hvw).mpr hv
  · intro bot_id members users
    exact ⟨fun m hm hid => new_member_adds bot_id members users m hm hid,
      fun v hv => new_member_mem_of_mem bot_id members users v hv⟩

theorem claim_C7_witness :
    ∃ w ∈ [(⟨1, ("a"), false⟩ : User), ⟨2, ("b"), false⟩], w.id = 1 ∧
      handle_left_chat_member 0 1 [⟨1, ("a"), false⟩, ⟨2, ("b"), false⟩] =
        ([(⟨1, ("a"), false⟩ : User), ⟨2, ("b"), false⟩]).erase w ∧
      (handle_left_chat_member 0 1 [⟨1, ("a"), false⟩, ⟨2, ("b"), false⟩]).length + 1 =
        ([(⟨1, ("a"), false⟩ : User), ⟨2, ("b"), false⟩]).length ∧
      (∀ v ∈ [(⟨1, ("a"), false⟩ : User), ⟨2, ("b"), false⟩], v ≠ w →
        v ∈ handle_left_chat_member 0 1 [⟨1, ("a"), false⟩, ⟨2, ("b"), false⟩]) :=
  claim_C7_membership.1 0 1 [⟨1, ("a"), false⟩, ⟨2, ("b"), false⟩] ⟨1, ("a"), false⟩
    (by decide) (by decide) rfl

/-! ## Claim C9: invite-link validation -/

theorem patMatch_lits : ∀ (p cs : List Char),
    patMatch (p.map PatChar.lit) cs = true ↔ ∃ t, cs = p ++ t := by
  intro p
  induction p with
  | nil =>
    intro cs
    simp [patMatch]
  | cons a p ih =>
    intro cs
    cases cs with
    | nil => simp [patMatch]
    | cons c cs' =>
      simp only [List.map_cons, patMatch, Bool.and_eq_true, beq_iff_eq, ih cs',
        List.cons_append]
      constructor
      · rintro ⟨rfl, t, rfl⟩
        exact ⟨t, rfl⟩
      · rintro ⟨t, ht⟩
        injection ht with h1 h2
        exact ⟨h1.symm, t, h2⟩

theorem patMatch_dot (p1 p2 : List Char) :
    ∀ cs, patMatch (p1.map PatChar.lit ++ PatChar.dot :: p2.map PatChar.lit) cs = true ↔
      ∃ c t, c ≠ '\n' ∧ cs = p1 ++ c :: (p2 ++ t) := by
  induction p1 with
  | nil =>
    intro cs
    cases cs with
    | nil => simp [patMatch]
    | cons c cs' =>
      simp only [List.map_nil, List.nil_append, patMatch, Bool.and_eq_true, bne_iff_ne,
        patMatch_lits p2 cs']
      constructor
      · rintro ⟨hne, t, rfl⟩
        exact ⟨c, t, hne, rfl⟩
      · rintro ⟨c', t, hne, heq⟩
        injection heq with h1 h2
        subst h1
        exact ⟨hne, t, h2⟩
  | cons a p1 ih =>
    intro cs
    cases cs with
    | nil => simp [patMatch]
    | cons c cs' =>
      have hstep : patMatch (((a :: p1).map PatChar.lit) ++ PatChar.dot :: p2.map PatChar.lit)
          (c :: cs') =
          (a == c && patMatch (p1.map PatChar.lit ++ PatChar.dot :: p2.map PatChar.lit) cs') := rfl
      rw [hstep, Bool.and_eq_true, beq_iff_eq, ih cs']
      constructor
      · rintro ⟨rfl, c', t, hne, heq⟩
        exact ⟨c', t, hne, by rw [List.cons_append, heq]⟩
      · rintro ⟨c', t, hne, heq⟩
        rw [List.cons_append] at heq
        injection heq with h1 h2
        exact ⟨h1.symm, c', t, hne, h2⟩

/-- Claim C9 (amended): _validate_invite_link accepts exactly the
strings beginning with a match of one of the two patterns, where the
unescaped dot matches any single character other than newline. -/
theorem claim_C9_amended (link : String) :
    _validate_invite_link link = true ↔
      ((∃ c t, c ≠ '\n' ∧
        link.data = ("https://t").data ++ c :: (("me/joinchat/").data ++ t)) ∨
        (∃ t, link.data = ("tg://join?invite=").data ++ t)) := by
  unfold _validate_invite_link invitePattern1 invitePattern2
  rw [Bool.or_eq_true, patMatch_dot (("https://t").data) (("me/joinchat/").data) link.data,
    patMatch_lits (("tg://join?invite=").data) link.data]

/-- Claim C9 as frozen is false on the code: a string whose wildcard
position holds a newline matches the claimed shape (dot as any single
character) but the validator rejects it. -/
theorem claim_C9_counterexample :
    _validate_invite_link ("https://t\nme/joinchat/") = false ∧
    (∃ c t, (("https://t\nme/joinchat/") : String).data =
      ("https://t").data ++ c :: (("me/joinchat/").data ++ t)) :=
  ⟨rfl, ⟨'\n', [], rfl⟩⟩

/-! ## Claim C8: message splitting -/

def sumLen (m : List String) : Nat := (m.map String.length).sum

theorem sumLen_snoc (x : List String) (l : String) : sumLen (x ++ [l]) = sumLen x + l.length := by
  simp [sumLen]

def nthD : List (List String) → Nat → List String
  | [], _ => []
  | m :: _, 0 => m
  | _ :: ms, i + 1 => nthD ms i

theorem appendAt_length : ∀ (ms : List (List String)) (i : Nat) (line : String),
    (appendAt ms i line).length = ms.length := by
  intro ms
  induction ms with
  | nil => intro i line; rfl
  | cons m ms ih =>
    intro i line
    cases i with
    | zero => rfl
    | succ j => simp [appendAt, ih j line]

theorem nthD_appendAt : ∀ (ms : List (List String)) (i : Nat) (line : String), i < ms.length →
    nthD (appendAt ms i line) i = nthD ms i ++ [line] := by
  intro ms
  induction ms with
  | nil => intro i line h; cases h
  | cons m ms ih =>
    intro i line h
    cases i with
    | zero => rfl
    | succ j =>
      show nthD (appendAt ms j line) j = nthD ms j ++ [line]
      exact ih j line (Nat.lt_of_succ_lt_succ h)

theorem mem_appendAt : ∀ (ms : List (List String)) (i : Nat) (line : String) (m : List String),
    m ∈ appendAt ms i line → m ∈ ms ∨ m = nthD ms i ++ [line] := by
  intro ms
  induction ms with
  | nil => intro i line m hm; cases hm
  | cons m0 ms ih =>
    intro i line m hm
    cases i with
    | zero =>
      rcases List.mem_cons.mp hm with rfl | hm
      · exact Or.inr rfl
      · exact Or.inl (List.mem_cons_of_mem m0 hm)
    | succ j =>
      rcases List.mem_cons.mp hm with rfl | hm
      · exact Or.inl (List.mem_cons_self m ms)
      · rcases ih j line m hm with hm | hm
        · exact Or.inl (List.mem_cons_of_mem m0 hm)
        · exact Or.inr hm

theorem flatten_appendAt : ∀ (ms : List (List String)) (i : Nat) (line : String),
    i + 1 = ms.length → (appendAt ms i line).flatten = ms.flatten ++ [line] := by
  intro ms
  induction ms with
  | nil => intro i line h; cases h
  | cons m ms ih =>
    intro i line h
    cases i with
    | zero =>
      have hms : ms = [] := by
        have h0 : ms.length = 0 := by
          simp only [List.length_cons] at h
          omega
        exact List.length_eq_zero.mp h0
      subst hms
      simp [appendAt]
    | succ j =>
      have hj : j + 1 = ms.length := by
        simp only [List.length_cons] at h
        omega
      simp [appendAt, ih j line hj]

theorem nthD_snoc_self : ∀ ms : List (List String), nthD (ms ++ [[]]) ms.length = [] := by
  intro ms
  induction ms with
  | nil => rfl
  | cons m ms ih => exact ih

theorem splitAux_spec :
    ∀ (rest : List String) (ms : List (List String)) (cl cm : Nat),
      ((ms.length = cm ∧ cl = 0) ∨ (ms.length = cm + 1 ∧ cl = sumLen (nthD ms cm))) →
      (∀ m ∈ ms, sumLen m < 4096) →
      ((∀ m ∈ splitAux rest ms cl cm, sumLen m < 4096) ∧
        ∃ s, (splitAux rest ms cl cm).flatten = ms.flatten ++ s ∧ s.Sublist rest) := by
  intro rest
  induction rest with
  | nil =>
    intro ms cl cm hinv hb
    exact ⟨hb, [], by simp [splitAux], List.nil_sublist []⟩
  | cons line rest ih =>
    intro ms cl cm hinv hb
    by_cases hlen : ms.length ≤ cm
    · -- a fresh empty message is appended
      have hstep : splitAux (line :: rest) ms cl cm =
          if cl + line.length < 4096 then
            splitAux rest (appendAt (ms ++ [[]]) cm line) (cl + line.length) cm
          else splitAux rest (ms ++ [[]]) 0 (cm + 1) := by
        simp only [splitAux]
        rw [if_pos hlen]
      have hl0 : ms.length = cm ∧ cl = 0 := by
        rcases hinv with h | ⟨hl, _⟩
        · exact h
        · omega
      obtain ⟨hl, hcl⟩ := hl0
      subst hl
      subst hcl
      have hA : (ms ++ [[]]).length = ms.length + 1 := by simp
      have hB : sumLen (nthD (ms ++ [[]]) ms.length) = 0 := by
        rw [nthD_snoc_self]
        rfl
      have hC : ∀ m ∈ ms ++ [[]], sumLen m < 4096 := by
        intro m hm
        rcases List.mem_append.mp hm with hm | hm
        · exact hb m hm
        · simp only [List.mem_singleton] at hm
          subst hm
          decide
      have hD : (ms ++ [[]]).flatten = ms.flatten := by simp
      by_cases hlt : 0 + line.length < 4096
      · rw [hstep, if_pos hlt]
        have hcmlt : ms.length < (ms ++ [[]]).length := by simp
        have hinv' : (appendAt (ms ++ [[]]) ms.length line).length = ms.length + 1 ∧
            0 + line.length = sumLen (nthD (appendAt (ms ++ [[]]) ms.length line) ms.length) := by
          constructor
          · rw [appendAt_length, hA]
          · rw [nthD_appendAt (ms ++ [[]]) ms.length line hcmlt, sumLen_snoc, hB]
        have hb' : ∀ m ∈ appendAt (ms ++ [[]]) ms.length line, sumLen m < 4096 := by
          intro m hm
          rcases mem_appendAt (ms ++ [[]]) ms.length line m hm with hm | hm
          · exact hC m hm
          · rw [hm, sumLen_snoc, hB]
            omega
        obtain ⟨hbnd, s, hflat, hsub⟩ :=
          ih (appendAt (ms ++ [[]]) ms.length line) (0 + line.length) ms.length
            (Or.inr hinv') hb'
        refine ⟨hbnd, line :: s, ?_, hsub.cons₂ line⟩
        rw [hflat, flatten_appendAt (ms ++ [[]]) ms.length line (by rw [hA]), hD]
        simp
      · rw [hstep, if_neg hlt]
        obtain ⟨hbnd, s, hflat, hsub⟩ :=
          ih (ms ++ [[]]) 0 (ms.length + 1) (Or.inl ⟨hA, rfl⟩) hC
        exact ⟨hbnd, s, by rw [hflat, hD], hsub.cons line⟩
    · -- the current message already exists
      have hstep : splitAux (line :: rest) ms cl cm =
          if cl + line.length < 4096 then
            splitAux rest (appendAt ms cm line) (cl + line.length) cm
          else splitAux rest ms 0 (cm + 1) := by
        simp only [splitAux]
        rw [if_neg hlen]
      have hl1 : ms.length = cm + 1 ∧ cl = sumLen (nthD ms cm) := by
        rcases hinv with ⟨hl, _⟩ | h
        · omega
        · exact h
      obtain ⟨hA, hB⟩ := hl1
      by_cases hlt : cl + line.length < 4096
      · rw [hstep, if_pos hlt]
        have hcmlt : cm < ms.length := by omega
        have hinv' : (appendAt ms cm line).length = cm + 1 ∧
            cl + line.length = sumLen (nthD (appendAt ms cm line) cm) := by
          constructor
          · rw [appendAt_length, hA]
          · rw [nthD_appendAt ms cm line hcmlt, sumLen_snoc, ← hB]
        have hb' : ∀ m ∈ appendAt ms cm line, sumLen m < 4096 := by
          intro m hm
          rcases mem_appendAt ms cm line m hm with hm | hm
          · exact hb m hm
          · rw [hm, sumLen_snoc, ← hB]
            exact hlt
        obtain ⟨hbnd, s, hflat, hsub⟩ :=
          ih (appendAt ms cm line) (cl + line.length) cm (Or.inr hinv') hb'
        refine ⟨hbnd, line :: s, ?_, hsub.cons₂ line⟩
        rw [hflat, flatten_appendAt ms cm line hA.symm]
        simp
      · rw [hstep, if_neg hlt]
        obtain ⟨hbnd, s, hflat, hsub⟩ :=
          ih ms 0 (cm + 1) (Or.inl ⟨hA, rfl⟩) hb
        exact ⟨hbnd, s, hflat, hsub.cons line⟩

/-- Claim C8: every message produced by _split_messages has total
character count strictly below 4096, and the flattened output is an
order-preserving subsequence of the input lines (overflowing lines are
dropped, so the output need not contain every input line). -/
theorem claim_C8_split_messages (lines : List String) :
    (∀ msg ∈ _split_messages lines, sumLen msg < 4096) ∧
    (_split_messages lines).flatten.Sublist lines := by
  obtain ⟨hbnd, s, hflat, hsub⟩ :=
    splitAux_spec lines [] 0 0 (Or.inl ⟨rfl, rfl⟩) (by intro m hm; cases hm)
  refine ⟨hbnd, ?_⟩
  have hflat' : (_split_messages lines).flatten = s := by
    unfold _split_messages
    rw [hflat]
    simp
  rw [hflat']
  exact hsub

theorem claim_C8_witness :
    sumLen [("hi")] < 4096 ∧ (_split_messages [("hi")]).flatten.Sublist [("hi")] :=
  ⟨(claim_C8_split_messages [("hi")]).1 [("hi")] (by decide),
    (claim_C8_split_messages [("hi")]).2⟩
